import Mathlib

/-!
Verification of the data-alignment and windowing core of the
PolymarketBTC15mAssistant repository (TypeScript), as a shallow embedding.

Conventions of the embedding:
* JavaScript epoch timestamps (`Date.now()`, `new Date(s).getTime()`, kline
  open times, CLOB history timestamps) are integer-valued numbers in the
  source; they are embedded as `Int`.
* Prices and probabilities are JS numbers that the embedded code only copies
  and compares (never rounds); they are embedded as `ℚ`.
* `safeTimeMs` in the source parses an optional date string to
  `number | null`; the embedding carries the parsed result directly as
  `Option Int` (`none` = field absent or unparseable).
* Fallible/absent values (`x | null`) are embedded as `Option`.
-/

/-- A candidate prediction market, as consumed by `pickLatestLiveMarket` in
`src/packages/dashboard/app/api/data/route.ts`.  `endDate` and
`eventStartTime` hold the result of `safeTimeMs` applied to the raw fields:
`none` when the field is absent or unparseable. -/
structure Market where
  slug : Option String
  question : Option String
  endDate : Option Int
  eventStartTime : Option Int
  deriving DecidableEq, Repr

/-- The record built by the `.map` step inside `pickLatestLiveMarket`:
the market together with its parsed end time (guaranteed present after the
`.filter((x) => x.endMs !== null)` step) and parsed start time. -/
structure Enriched where
  m : Market
  endMs : Int
  startMs : Option Int
  deriving DecidableEq, Repr

/-- The `.map(...)` plus `.filter((x) => x.endMs !== null)` steps of
`pickLatestLiveMarket`: keep only markets with a parseable end time. -/
def enrich (markets : List Market) : List Enriched :=
  markets.filterMap (fun m => m.endDate.map (fun e => ⟨m, e, m.eventStartTime⟩))

/-- The predicate of the `live` filter in `pickLatestLiveMarket`:
`started = x.startMs === null ? true : x.startMs <= nowMs` and
`started && nowMs < x.endMs`. -/
def liveCheck (nowMs : Int) (x : Enriched) : Bool :=
  (match x.startMs with
   | none => true
   | some s => decide (s ≤ nowMs)) && decide (nowMs < x.endMs)

/-- The ascending comparator `(a, b) => a.endMs - b.endMs` used by the two
`.sort` calls in `pickLatestLiveMarket`. -/
def endLe (a b : Enriched) : Bool :=
  decide (a.endMs ≤ b.endMs)

/-- `pickLatestLiveMarket` from `src/packages/dashboard/app/api/data/route.ts`
(lines 118-138; the copy in `src/unnamed/part_004` is the same algorithm):
drop markets without a parseable end time, prefer live markets sorted by
ascending end time, fall back to upcoming markets sorted by ascending end
time, otherwise return null.  JS `Array.prototype.sort` is stable and is
embedded as a stable merge sort. -/
def pickLatestLiveMarket (markets : List Market) (nowMs : Int) : Option Market :=
  if markets.isEmpty then none
  else
    match ((enrich markets).filter (liveCheck nowMs)).mergeSort endLe with
    | x :: _ => some x.m
    | [] =>
      match ((enrich markets).filter (fun x => decide (nowMs < x.endMs))).mergeSort endLe with
      | x :: _ => some x.m
      | [] => none

/-- A market is live at `nowMs`: its end time parses, its start time is
absent or ≤ `nowMs`, and `nowMs` is strictly before its end time.  This is
`liveCheck` re-expressed on the raw market. -/
def isLive (nowMs : Int) (m : Market) : Bool :=
  match m.endDate with
  | none => false
  | some e =>
    (match m.eventStartTime with
     | none => true
     | some s => decide (s ≤ nowMs)) && decide (nowMs < e)

/-- A market is upcoming-or-live at `nowMs`: its end time parses and is
strictly after `nowMs` (the predicate of the fallback `upcoming` filter). -/
def isUpcoming (nowMs : Int) (m : Market) : Bool :=
  match m.endDate with
  | none => false
  | some e => decide (nowMs < e)

/-- A Binance kline as mapped by `fetchBinanceKlines` in
`src/packages/dashboard/app/api/data/route.ts`: `openTime`/`closeTime` are
`Number(...)` (integer epoch ms), the price/volume fields go through
`toNumber` and may be null. -/
structure Kline where
  openTime : Int
  open_ : Option ℚ
  high : Option ℚ
  low : Option ℚ
  close : Option ℚ
  volume : Option ℚ
  closeTime : Int
  deriving DecidableEq, Repr

/-- A Polymarket prices-history point `{ t, p }` as produced by
`fetchPolymarketPriceHistory` (both coordinates already checked finite). -/
structure PolyPoint where
  t : Int
  p : ℚ
  deriving DecidableEq, Repr

/-- One element of the `history` array built by the alignment loop in the
`GET` handler: `{ timeMs, btc, poly }`. -/
structure HistoryPoint where
  timeMs : Int
  btc : ℚ
  poly : Option ℚ
  deriving DecidableEq, Repr

/-- The `t < 1e12 ? t * 1000 : t` seconds-to-milliseconds normalization
applied pointwise by the `polyHistoryMs` mapping in the `GET` handler
(route.ts lines 252-255). -/
def normalizePolyPoint (item : PolyPoint) : PolyPoint :=
  { t := if item.t < 1000000000000 then item.t * 1000 else item.t
    p := item.p }

/-- `polyHistoryMs = polyHistory.map(...)`: normalize every fetched
prediction-history timestamp to milliseconds, leaving probabilities alone. -/
def polyHistoryMs (history : List PolyPoint) : List PolyPoint :=
  history.map normalizePolyPoint

/-- The inner reverse scan of the alignment loop: walk `polyHistoryMs`
backwards from its last element and return the `p` of the first element
with `t <= time`, or null when none exists. -/
def lastPolyAt (ps : List PolyPoint) (time : Int) : Option ℚ :=
  match ps.reverse.find? (fun q => decide (q.t ≤ time)) with
  | some q => some q.p
  | none => none

/-- `SAMPLE_INTERVAL_MS = 5000` from the `GET` handler. -/
def SAMPLE_INTERVAL_MS : Int := 5000

/-- The alignment loop of the `GET` handler (route.ts lines 257-274):
iterate the 1s klines carrying `nextSampleTime`; when a kline has
`openTime >= nextSampleTime` and a non-null close, emit
`{ timeMs: openTime, btc: close, poly: lastPolyAt ... }` and advance
`nextSampleTime` to `openTime + SAMPLE_INTERVAL_MS`; otherwise skip it. -/
def alignLoop (ps : List PolyPoint) (nextSampleTime : Int) : List Kline → List HistoryPoint
  | [] => []
  | k :: ks =>
    match k.close with
    | some c =>
      if nextSampleTime ≤ k.openTime then
        { timeMs := k.openTime, btc := c, poly := lastPolyAt ps k.openTime } ::
          alignLoop ps (k.openTime + SAMPLE_INTERVAL_MS) ks
      else
        alignLoop ps nextSampleTime ks
    | none => alignLoop ps nextSampleTime ks

/-- The window computation of the `GET` handler (route.ts lines 171-174):
`windowStartMs = Math.floor(nowMs / windowMs) * windowMs`,
`windowEndMs = windowStartMs + windowMs`.  `Math.floor` division on
integers is `Int.fdiv`. -/
def currentWindow (nowMs windowMs : Int) : Int × Int :=
  let startMs := (Int.fdiv nowMs windowMs) * windowMs
  (startMs, startMs + windowMs)

/-- `candleTimeLeftMin = (windowEndMs - nowMs) / 60_000` from the `GET`
handler (route.ts line 276), in minutes. -/
def candleTimeLeftMin (nowMs windowEndMs : Int) : ℚ :=
  ((windowEndMs : ℚ) - (nowMs : ℚ)) / 60000

/-- A point of the dashboard's running chart buffer
(`ChartPoint` in `src/packages/dashboard/components/types`): a formatted
time label, the BTC price, the Up outcome price, and a running index. -/
structure ChartPoint where
  time : String
  btc : ℚ
  poly : ℚ
  idx : Nat
  deriving DecidableEq, Repr

/-- The fields of the `/api/.../data` JSON response that the
`fetchData` callback in `src/packages/dashboard/components/Dashboard.tsx`
reads when updating the chart buffer. -/
structure TickJson where
  btcPrice : Option ℚ
  upPrice : Option ℚ
  slug : Option String
  history : List HistoryPoint
  deriving DecidableEq, Repr

/-- The mutable state that the `fetchData` callback threads across poll
ticks: the `chartHistory` React state and the `prevMarketSlug` ref. -/
structure TickState where
  chartHistory : List ChartPoint
  prevMarketSlug : Option String
  deriving DecidableEq, Repr

/-- JS truthiness of a `string | null` value (`prevMarketSlug.current && ...`
in the reset test): null and the empty string are falsy. -/
def truthyStr : Option String → Bool
  | none => false
  | some s => !(s == "")

/-- The backfill seeding step of `fetchData`: keep the history points whose
`poly` is non-null and turn each into a chart point whose `time` label is the
locale formatting `fmt` of `timeMs` and whose `idx` is its position. -/
def backfill (fmt : Int → String) (history : List HistoryPoint) : List ChartPoint :=
  ((history.filter (fun h => h.poly.isSome)).enum).map
    (fun ih => { time := fmt ih.2.timeMs
                 btc := ih.2.btc
                 poly := ih.2.poly.getD 0
                 idx := ih.1 })

/-- One poll tick of the `fetchData` callback in
`src/packages/dashboard/components/Dashboard.tsx` (lines 119-194), restricted
to the chart buffer and previous-slug state.  When either the spot price or
the Up outcome price is null the whole update is skipped.  Otherwise: clear
the buffer when a truthy previous slug differs from the current one, record
the current slug, reseed an empty buffer from the response history, append
the tick's new point, and keep only the last 500 points. -/
def fetchDataTick (fmt : Int → String) (timeStr : String) (json : TickJson)
    (st : TickState) : TickState :=
  match json.btcPrice, json.upPrice with
  | some btc, some up =>
    let currentSlug := json.slug
    let base1 :=
      if truthyStr st.prevMarketSlug && !(currentSlug == st.prevMarketSlug) then
        ([] : List ChartPoint)
      else st.chartHistory
    let base2 :=
      if base1.isEmpty && !json.history.isEmpty then backfill fmt json.history
      else base1
    let newPoint : ChartPoint :=
      { time := timeStr, btc := btc, poly := up, idx := base2.length }
    let updated := base2 ++ [newPoint]
    let final := if updated.length > 500 then updated.drop (updated.length - 500)
                 else updated
    { chartHistory := final, prevMarketSlug := currentSlug }
  | _, _ => st

/-- Modelled from the spec: the repository's `ApiResponse` type declares an
`atr : number | null` field and `Dashboard.tsx` consumes `json.atr`, but the
route code computing ATR is not under `src/`.  Spec §4.4: a bar of the kline
series with its high, low and close. -/
structure Bar where
  high : ℚ
  low : ℚ
  close : ℚ
  deriving DecidableEq, Repr

/-- Modelled from the spec (§4.4): the true range of a bar given the previous
close, `max(high - low, |high - prevClose|, |low - prevClose|)`. -/
def trueRange (prevClose : ℚ) (b : Bar) : ℚ :=
  max (b.high - b.low) (max |b.high - prevClose| |b.low - prevClose|)

/-- Helper for `trueRanges`: true ranges of the remaining bars given the
previous bar. -/
def trueRangesFrom (prev : Bar) : List Bar → List ℚ
  | [] => []
  | b :: bs => trueRange prev.close b :: trueRangesFrom b bs

/-- Modelled from the spec (§4.4): the per-bar true ranges of a series, each
bar after the first paired with its predecessor's close. -/
def trueRanges : List Bar → List ℚ
  | [] => []
  | b :: bs => trueRangesFrom b bs

/-- Modelled from the spec (§4.4): `computeATR(klines, period)` — null when
fewer than `period + 1` bars are available, otherwise the simple moving
average of the trailing `period` true ranges. -/
def computeATR (bars : List Bar) (period : Nat) : Option ℚ :=
  if bars.length < period + 1 then none
  else
    let trs := trueRanges bars
    let trailing := trs.drop (trs.length - period)
    some (trailing.sum / (period : ℚ))

/-- Modelled from the spec (§4.2): the ReferencePriceTracker component is
described by the spec and its `referencePrice` output appears as a prop of
`PriceChart.tsx` and display components, but the capturing code is not under
`src/`.  State: the captured price plus the windowStart/marketId key it was
captured for (`empty` = all `none`). -/
structure RefTracker where
  price : Option ℚ
  windowStart : Option Int
  marketId : Option String
  deriving DecidableEq, Repr

/-- Modelled from the spec (§4.2): `capture(currentPrice, marketId,
windowStart)` — a no-op while already captured for the same
windowStart/marketId, otherwise store `currentPrice` under the new key. -/
def capture (st : RefTracker) (currentPrice : ℚ) (marketId : String)
    (windowStart : Int) : RefTracker :=
  if st.price.isSome ∧ st.windowStart = some windowStart ∧ st.marketId = some marketId
  then st
  else { price := some currentPrice
         windowStart := some windowStart
         marketId := some marketId }

/-- A 1s kline whose four price fields all equal `c` (klines in the
alignment examples only have their `openTime` and `close` inspected). -/
def constKline (t : Int) (c : ℚ) : Kline :=
  { openTime := t, open_ := some c, high := some c, low := some c
    close := some c, volume := some 0, closeTime := t }

/-- C4: for every `now` and every positive `windowDurationMs` the window is
`startMs = floor(now / windowDurationMs) * windowDurationMs`,
`endMs = startMs + windowDurationMs`, the computed time remaining to `endMs`
is never negative, and concretely `currentWindow 930000 900000 =
(900000, 1800000)` with `870000` milliseconds (14.5 minutes) remaining at
`now = 930000`. -/
theorem currentWindow_correct (nowMs windowMs : Int) (hw : 0 < windowMs) :
    (currentWindow nowMs windowMs).1 = nowMs.fdiv windowMs * windowMs ∧
    (currentWindow nowMs windowMs).2 = (currentWindow nowMs windowMs).1 + windowMs ∧
    0 ≤ (currentWindow nowMs windowMs).2 - nowMs ∧
    0 ≤ candleTimeLeftMin nowMs (currentWindow nowMs windowMs).2 ∧
    currentWindow 930000 900000 = (900000, 1800000) ∧
    (currentWindow 930000 900000).2 - 930000 = 870000 ∧
    candleTimeLeftMin 930000 (currentWindow 930000 900000).2 * 60000 = 870000 := by
  have hrem : 0 ≤ (currentWindow nowMs windowMs).2 - nowMs := by
    unfold currentWindow
    rw [Int.fdiv_eq_ediv nowMs hw.le]
    have hlt : nowMs % windowMs < windowMs := Int.emod_lt_of_pos nowMs hw
    have hdef : nowMs % windowMs = nowMs - windowMs * (nowMs / windowMs) :=
      Int.emod_def nowMs windowMs
    have hcomm : nowMs / windowMs * windowMs = windowMs * (nowMs / windowMs) :=
      mul_comm _ _
    simp only []
    linarith
  have h2 : (currentWindow 930000 900000).2 = 1800000 := by decide
  refine ⟨rfl, rfl, hrem, ?_, by decide, by decide, by rw [h2]; norm_num [candleTimeLeftMin]⟩
  unfold candleTimeLeftMin
  have h60 : (0 : ℚ) < 60000 := by norm_num
  apply div_nonneg _ h60.le
  have : (0 : ℚ) ≤ (((currentWindow nowMs windowMs).2 - nowMs : Int) : ℚ) := by
    exact_mod_cast hrem
  push_cast at this
  linarith

/-- C4 witness: the general statement applied at `now = 930000`,
`windowDurationMs = 900000`. -/
theorem currentWindow_correct_witness :
    (currentWindow 930000 900000).1 = Int.fdiv 930000 900000 * 900000 ∧
    (currentWindow 930000 900000).2 = (currentWindow 930000 900000).1 + 900000 ∧
    0 ≤ (currentWindow 930000 900000).2 - 930000 ∧
    0 ≤ candleTimeLeftMin 930000 (currentWindow 930000 900000).2 ∧
    currentWindow 930000 900000 = (900000, 1800000) ∧
    (currentWindow 930000 900000).2 - 930000 = 870000 ∧
    candleTimeLeftMin 930000 (currentWindow 930000 900000).2 * 60000 = 870000 :=
  currentWindow_correct 930000 900000 (by decide)

/-- C9: the `polyHistoryMs` normalization preserves the number of points and
maps each point `(t, p)` to `(t * 1000, p)` when `t < 1e12` and to `(t, p)`
otherwise. -/
theorem polyHistoryMs_normalizes (hist : List PolyPoint) :
    (polyHistoryMs hist).length = hist.length ∧
    ∀ (i : Nat) (h : i < hist.length),
      (polyHistoryMs hist).get ⟨i, by simpa [polyHistoryMs] using h⟩ =
        { t := if (hist.get ⟨i, h⟩).t < 1000000000000
               then (hist.get ⟨i, h⟩).t * 1000
               else (hist.get ⟨i, h⟩).t
          p := (hist.get ⟨i, h⟩).p } := by
  refine ⟨by simp [polyHistoryMs], ?_⟩
  intro i h
  simp [polyHistoryMs, normalizePolyPoint]

/-- C9 witness: normalization of the two-point history
`[(3, 1), (2000000000000, 5)]` — a seconds timestamp is scaled, a
milliseconds timestamp is kept. -/
theorem polyHistoryMs_normalizes_witness :
    (polyHistoryMs [⟨3, 1⟩, ⟨2000000000000, 5⟩]).get ⟨0, by decide⟩ =
      { t := if ((3 : Int) < 1000000000000) then 3 * 1000 else 3, p := 1 } ∧
    (polyHistoryMs [⟨3, 1⟩, ⟨2000000000000, 5⟩]).get ⟨1, by decide⟩ =
      { t := if ((2000000000000 : Int) < 1000000000000) then 2000000000000 * 1000
             else 2000000000000
        p := 5 } :=
  ⟨(polyHistoryMs_normalizes [⟨3, 1⟩, ⟨2000000000000, 5⟩]).2 0 (by decide),
   (polyHistoryMs_normalizes [⟨3, 1⟩, ⟨2000000000000, 5⟩]).2 1 (by decide)⟩

/-- C2 counterexample: at the claim's literal input — klines at
`0, 5, 10` ms with closes `100, 101, 102`, predictions `(3, 1/2)` and
`(8, 3/5)`, the loop's `nextSampleTime` starting at the window start `0` —
the alignment loop does NOT produce one output point per price sample: the
5000 ms `SAMPLE_INTERVAL_MS` downsampling suppresses the samples at 5 and
10 ms. -/
theorem alignLoop_example_cex :
    alignLoop [⟨3, mkRat 1 2⟩, ⟨8, mkRat 3 5⟩] 0
        [constKline 0 100, constKline 5 101, constKline 10 102]
      ≠ [⟨0, 100, none⟩, ⟨5, 101, some (mkRat 1 2)⟩, ⟨10, 102, some (mkRat 3 5)⟩] := by
  decide

/-- C2 amended: the claim's example holds once the sample timestamps are
read in the code's millisecond unit, spaced at the 5000 ms sampling
interval: price samples `(0, 100), (5000, 101), (10000, 102)` and
predictions `(3000, 1/2), (8000, 3/5)` align to exactly
`[(0, 100, null), (5000, 101, 1/2), (10000, 102, 3/5)]`, each point carrying
the most recent prediction at or before its timestamp; at the literal input
`0, 5, 10` the loop instead emits only `[(0, 100, null)]`. -/
theorem alignLoop_example :
    alignLoop [⟨3000, mkRat 1 2⟩, ⟨8000, mkRat 3 5⟩] 0
        [constKline 0 100, constKline 5000 101, constKline 10000 102]
      = [⟨0, 100, none⟩, ⟨5000, 101, some (mkRat 1 2)⟩,
         ⟨10000, 102, some (mkRat 3 5)⟩] ∧
    alignLoop [⟨3, mkRat 1 2⟩, ⟨8, mkRat 3 5⟩] 0
        [constKline 0 100, constKline 5 101, constKline 10 102]
      = [⟨0, 100, none⟩] := by
  exact ⟨by decide, by decide⟩

/-- C7 (modelled from the spec, §4.2): a second `capture` with the same
windowStart and marketId is a no-op (only the first price is stored), while
a `capture` after the windowStart or the marketId changed stores the new
price, overwriting the old one. -/
theorem capture_semantics (st : RefTracker) (p p' : ℚ) (mid mid' : String)
    (w w' : Int) (hw : w' ≠ w) (hm : mid' ≠ mid) :
    ((capture st p mid w).price = some p ∨ capture st p mid w = st) ∧
    capture (capture st p mid w) p' mid w = capture st p mid w ∧
    (capture (capture st p mid w) p' mid w').price = some p' ∧
    (capture (capture st p mid w) p' mid' w).price = some p' := by
  by_cases h : st.price.isSome ∧ st.windowStart = some w ∧ st.marketId = some mid
  · refine ⟨Or.inr (by simp [capture, h]), ?_, ?_, ?_⟩
    · simp [capture, h]
    · have hne : ¬ (st.windowStart = some w') := by
        rw [h.2.1]; simp; intro he; exact hw he.symm
      simp [capture, h, hne, Ne.symm hw]
    · have hne : ¬ (st.marketId = some mid') := by
        rw [h.2.2]; simp; intro he; exact hm he.symm
      simp [capture, h, hne, Ne.symm hm]
  · refine ⟨Or.inl (by simp [capture, h]), ?_, ?_, ?_⟩
    · simp [capture, h]
    · simp [capture, h, hw, Ne.symm hw]
    · simp [capture, h, hm, Ne.symm hm]

/-- C7 witness: starting from the empty tracker, capture `67000` for market
`"a"` at window `0`; re-capturing `68000` for the same key is a no-op, while
re-capturing after the window moves to `900000` or the market changes to
`"b"` stores `68000`. -/
theorem capture_semantics_witness :
    ((capture ⟨none, none, none⟩ 67000 "a" 0).price = some 67000 ∨
      capture ⟨none, none, none⟩ 67000 "a" 0 = ⟨none, none, none⟩) ∧
    capture (capture ⟨none, none, none⟩ 67000 "a" 0) 68000 "a" 0
      = capture ⟨none, none, none⟩ 67000 "a" 0 ∧
    (capture (capture ⟨none, none, none⟩ 67000 "a" 0) 68000 "a" 900000).price
      = some 68000 ∧
    (capture (capture ⟨none, none, none⟩ 67000 "a" 0) 68000 "b" 0).price
      = some 68000 :=
  capture_semantics ⟨none, none, none⟩ 67000 68000 "a" "b" 0 900000
    (by decide) (by decide)

/-- Every true range of a series of constant bars is zero. -/
theorem trueRangesFrom_const (c : ℚ) :
    ∀ (bs : List Bar) (prev : Bar), prev = ⟨c, c, c⟩ →
      (∀ b ∈ bs, b = ⟨c, c, c⟩) → ∀ x ∈ trueRangesFrom prev bs, x = 0 := by
  intro bs
  induction bs with
  | nil =>
    intro prev _ _ x hx
    simp [trueRangesFrom] at hx
  | cons b bs ih =>
    intro prev hprev hall x hx
    rw [trueRangesFrom] at hx
    have hb : b = ⟨c, c, c⟩ := hall b (List.mem_cons_self b bs)
    rcases List.mem_cons.mp hx with h | h
    · rw [h, hprev, hb]
      simp [trueRange]
    · exact ih b hb (fun b' hb' => hall b' (List.mem_cons_of_mem b hb')) x h

/-- C8 (modelled from the spec, §4.4): `computeATR` returns null whenever
fewer than `period + 1` bars are available, and on a constant-price bar
series (every bar's high, low and close equal to the same `c`) it is exactly
zero (hence converges to zero). -/
theorem computeATR_correct (bars : List Bar) (period : Nat) (c : ℚ) :
    (bars.length < period + 1 → computeATR bars period = none) ∧
    ((∀ b ∈ bars, b = ⟨c, c, c⟩) → period + 1 ≤ bars.length →
      computeATR bars period = some 0) := by
  constructor
  · intro h
    simp [computeATR, h]
  · intro hconst hlen
    have hnotlt : ¬ bars.length < period + 1 := not_lt.mpr hlen
    have hall0 : ∀ x ∈ trueRanges bars, x = 0 := by
      cases bars with
      | nil => intro x hx; simp [trueRanges] at hx
      | cons b bs =>
        intro x hx
        rw [trueRanges] at hx
        exact trueRangesFrom_const c bs b (hconst b (List.mem_cons_self b bs))
          (fun b' hb' => hconst b' (List.mem_cons_of_mem b hb')) x hx
    have hsum : ((trueRanges bars).drop ((trueRanges bars).length - period)).sum = 0 :=
      List.sum_eq_zero (fun x hx => hall0 x (List.mem_of_mem_drop hx))
    simp [computeATR, hnotlt, hsum]

/-- C8 witness: with period 2, a single bar yields null and three constant
bars at price 5 yield ATR 0. -/
theorem computeATR_correct_witness :
    computeATR [⟨5, 5, 5⟩] 2 = none ∧
    computeATR [⟨5, 5, 5⟩, ⟨5, 5, 5⟩, ⟨5, 5, 5⟩] 2 = some 0 :=
  ⟨(computeATR_correct [⟨5, 5, 5⟩] 2 5).1 (by decide),
   (computeATR_correct [⟨5, 5, 5⟩, ⟨5, 5, 5⟩, ⟨5, 5, 5⟩] 2 5).2 (by decide) (by decide)⟩

/-- C10: when the fetched spot price or the fetched Up outcome price is
null, the poll tick leaves the chart buffer and the remembered previous
market slug completely unchanged — no append, no reset, regardless of any
slug change. -/
theorem fetchDataTick_skip (fmt : Int → String) (timeStr : String)
    (json : TickJson) (st : TickState)
    (h : json.btcPrice = none ∨ json.upPrice = none) :
    fetchDataTick fmt timeStr json st = st := by
  unfold fetchDataTick
  rcases h with h | h
  · rw [h]
  · rw [h]
    cases json.btcPrice <;> rfl

/-- C10 witness: a tick whose spot price is null, and whose slug (`"m2"`)
differs from the remembered one (`"m1"`), changes nothing. -/
theorem fetchDataTick_skip_witness :
    fetchDataTick (fun _ => "x") "12:00:00"
        ⟨none, some 1, some "m2", [⟨0, 100, some 1⟩]⟩
        ⟨[⟨"t0", 1, 1, 0⟩], some "m1"⟩
      = ⟨[⟨"t0", 1, 1, 0⟩], some "m1"⟩ :=
  fetchDataTick_skip (fun _ => "x") "12:00:00"
    ⟨none, some 1, some "m2", [⟨0, 100, some 1⟩]⟩
    ⟨[⟨"t0", 1, 1, 0⟩], some "m1"⟩ (Or.inl rfl)

/-- C6 counterexample: the reset test `prevMarketSlug.current && currentSlug
!== prevMarketSlug.current` uses JS truthiness, so when the previously
observed slug is the empty string the buffer is NOT cleared even though the
current slug (`"m2"`) differs from it: the old buffer point survives next to
the new market's point. -/
theorem fetchDataTick_reset_cex :
    (some "m2" : Option String) ≠ some "" ∧
    (fetchDataTick (fun _ => "x") "t1" ⟨some 2, some 3, some "m2", []⟩
        ⟨[⟨"t0", 1, 1, 0⟩], some ""⟩).chartHistory
      = [⟨"t0", 1, 1, 0⟩, ⟨"t1", 2, 3, 1⟩] :=
  ⟨by decide, by decide⟩

/-- C6 amended: on a tick with non-null spot and Up prices (a tick that
appends a point at all), whenever the previously observed slug is truthy
(non-null and non-empty) and the current slug differs from it, the tick
behaves exactly as if the running buffer had been cleared to empty before
the update (so the backfill reseeding and the new point start from an empty
buffer, and no old-market point survives). -/
theorem fetchDataTick_marketChange_reset (fmt : Int → String) (timeStr : String)
    (json : TickJson) (st : TickState)
    (hbtc : json.btcPrice.isSome = true) (hup : json.upPrice.isSome = true)
    (hp : truthyStr st.prevMarketSlug = true)
    (hs : json.slug ≠ st.prevMarketSlug) :
    fetchDataTick fmt timeStr json st
      = fetchDataTick fmt timeStr json ⟨[], st.prevMarketSlug⟩ := by
  obtain ⟨b, hb⟩ := Option.isSome_iff_exists.mp hbtc
  obtain ⟨u, hu⟩ := Option.isSome_iff_exists.mp hup
  have hbeq : (json.slug == st.prevMarketSlug) = false := by
    simp [hs]
  unfold fetchDataTick
  rw [hb, hu]
  simp [hp, hbeq]

/-- C6 witness: with previously observed slug `"m1"` and current slug
`"m2"`, a tick over the buffer `[("t0", 1, 1, 0)]` equals the same tick over
the empty buffer. -/
theorem fetchDataTick_marketChange_reset_witness :
    fetchDataTick (fun _ => "x") "t1" ⟨some 2, some 3, some "m2", []⟩
        ⟨[⟨"t0", 1, 1, 0⟩], some "m1"⟩
      = fetchDataTick (fun _ => "x") "t1" ⟨some 2, some 3, some "m2", []⟩
        ⟨[], some "m1"⟩ :=
  fetchDataTick_marketChange_reset (fun _ => "x") "t1"
    ⟨some 2, some 3, some "m2", []⟩ ⟨[⟨"t0", 1, 1, 0⟩], some "m1"⟩
    (by decide) (by decide) (by decide) (by decide)

/-- The aligned output's timestamps form a subsequence of the input klines'
open times, in their original order. -/
theorem alignLoop_timeMs_sublist (ps : List PolyPoint) :
    ∀ (ks : List Kline) (t0 : Int),
      ((alignLoop ps t0 ks).map (fun h => h.timeMs)).Sublist
        (ks.map (fun k => k.openTime)) := by
  intro ks
  induction ks with
  | nil =>
    intro t0
    simp [alignLoop]
  | cons k ks ih =>
    intro t0
    rw [alignLoop]
    cases hc : k.close with
    | none =>
      simp only [List.map_cons]
      exact (ih t0).cons k.openTime
    | some c =>
      dsimp only
      by_cases ht : t0 ≤ k.openTime
      · rw [if_pos ht]
        simp only [List.map_cons]
        exact (ih (k.openTime + SAMPLE_INTERVAL_MS)).cons₂ k.openTime
      · rw [if_neg ht]
        simp only [List.map_cons]
        exact (ih t0).cons k.openTime

/-- C3: for every prediction list, initial sample time and kline list, the
aligned output is at most as long as the kline input, its timestamps are a
subsequence of the klines' open times in order (hence non-decreasing when
the klines are time-ordered), and the empty kline input yields the empty
output. -/
theorem alignLoop_invariants (ps : List PolyPoint) (t0 : Int) (ks : List Kline) :
    (alignLoop ps t0 ks).length ≤ ks.length ∧
    ((alignLoop ps t0 ks).map (fun h => h.timeMs)).Sublist
      (ks.map (fun k => k.openTime)) ∧
    ((ks.map (fun k => k.openTime)).Pairwise (· ≤ ·) →
      ((alignLoop ps t0 ks).map (fun h => h.timeMs)).Pairwise (· ≤ ·)) ∧
    alignLoop ps t0 [] = [] := by
  have hsub := alignLoop_timeMs_sublist ps ks t0
  refine ⟨?_, hsub, fun hord => hord.sublist hsub, rfl⟩
  have := hsub.length_le
  simpa using this

/-- C3 witness: two klines 5000 ms apart, empty prediction list: length
bound, sublist of open times, sortedness of the output timestamps and the
empty-input case at a concrete input. -/
theorem alignLoop_invariants_witness :
    (alignLoop [] 0 [constKline 0 100, constKline 5000 101]).length ≤ 2 ∧
    ((alignLoop [] 0 [constKline 0 100, constKline 5000 101]).map
        (fun h => h.timeMs)).Sublist
      ([constKline 0 100, constKline 5000 101].map (fun k => k.openTime)) ∧
    ((alignLoop [] 0 [constKline 0 100, constKline 5000 101]).map
        (fun h => h.timeMs)).Pairwise (· ≤ ·) ∧
    alignLoop [] 0 [] = [] := by
  obtain ⟨h1, h2, h3, h4⟩ := alignLoop_invariants [] 0 [constKline 0 100, constKline 5000 101]
  exact ⟨h1, h2, h3 (by decide), h4⟩

/-- Unpacking membership in `enrich`: an enriched entry comes from a market
of the input list, its `endMs` is that market's parsed end time, and its
`startMs` is that market's parsed start time. -/
theorem mem_enrich {markets : List Market} {x : Enriched} (hx : x ∈ enrich markets) :
    x.m ∈ markets ∧ x.m.endDate = some x.endMs ∧ x.startMs = x.m.eventStartTime := by
  simp only [enrich, List.mem_filterMap] at hx
  obtain ⟨m, hm, hmap⟩ := hx
  rcases he : m.endDate with _ | e
  · rw [he] at hmap
    simp at hmap
  · rw [he] at hmap
    simp only [Option.map_some'] at hmap
    obtain rfl : ({ m := m, endMs := e, startMs := m.eventStartTime } : Enriched) = x :=
      Option.some.inj hmap
    exact ⟨hm, he, rfl⟩

/-- Constructing membership in `enrich` from a market with a parsed end
time. -/
theorem mem_enrich_of {markets : List Market} {m : Market} {e : Int}
    (hm : m ∈ markets) (he : m.endDate = some e) :
    ({ m := m, endMs := e, startMs := m.eventStartTime } : Enriched) ∈ enrich markets := by
  simp only [enrich, List.mem_filterMap]
  exact ⟨m, hm, by rw [he]; rfl⟩

/-- On enriched entries the live filter agrees with `isLive` on the
underlying market. -/
theorem liveCheck_eq_isLive {x : Enriched} (he : x.m.endDate = some x.endMs)
    (hs : x.startMs = x.m.eventStartTime) (nowMs : Int) :
    liveCheck nowMs x = isLive nowMs x.m := by
  unfold liveCheck isLive
  rw [hs, he]

/-- On enriched entries the upcoming filter agrees with `isUpcoming` on the
underlying market. -/
theorem upcoming_eq_isUpcoming {x : Enriched} (he : x.m.endDate = some x.endMs)
    (nowMs : Int) :
    decide (nowMs < x.endMs) = isUpcoming nowMs x.m := by
  unfold isUpcoming
  rw [he]

/-- The head of `((enrich markets).filter pred).mergeSort endLe` exists as
soon as one market satisfies the matching market-level predicate, satisfies
it itself, and carries the least parsed end time among all satisfying
markets. -/
theorem sorted_filter_head (markets : List Market) (pred : Enriched → Bool)
    (predM : Market → Bool)
    (hcompat : ∀ x : Enriched, x ∈ enrich markets → pred x = predM x.m)
    {m0 : Market} (hm0 : m0 ∈ markets) (hp0 : predM m0 = true)
    {e0 : Int} (he0 : m0.endDate = some e0) :
    ∃ x rest, ((enrich markets).filter pred).mergeSort endLe = x :: rest ∧
      x.m ∈ markets ∧ predM x.m = true ∧ x.m.endDate = some x.endMs ∧
      ∀ m' ∈ markets, predM m' = true →
        ∀ e', m'.endDate = some e' → x.endMs ≤ e' := by
  have hx0e : ({ m := m0, endMs := e0, startMs := m0.eventStartTime } : Enriched)
      ∈ enrich markets := mem_enrich_of hm0 he0
  have hx0f : ({ m := m0, endMs := e0, startMs := m0.eventStartTime } : Enriched)
      ∈ (enrich markets).filter pred := by
    rw [List.mem_filter]
    exact ⟨hx0e, by rw [hcompat _ hx0e]; exact hp0⟩
  have hx0s : ({ m := m0, endMs := e0, startMs := m0.eventStartTime } : Enriched)
      ∈ ((enrich markets).filter pred).mergeSort endLe :=
    List.mem_mergeSort.mpr hx0f
  obtain ⟨x, rest, hcons⟩ :
      ∃ x rest, ((enrich markets).filter pred).mergeSort endLe = x :: rest := by
    cases hl : ((enrich markets).filter pred).mergeSort endLe with
    | nil =>
      rw [hl] at hx0s
      cases hx0s
    | cons a l => exact ⟨a, l, rfl⟩
  have hsorted : (((enrich markets).filter pred).mergeSort endLe).Pairwise
      (fun a b => endLe a b = true) :=
    List.sorted_mergeSort
      (fun a b c hab hbc => by
        simp only [endLe, decide_eq_true_eq] at hab hbc ⊢
        exact le_trans hab hbc)
      (fun a b => by
        simp only [endLe, Bool.or_eq_true, decide_eq_true_eq]
        exact le_total a.endMs b.endMs)
      ((enrich markets).filter pred)
  rw [hcons] at hsorted
  have hmin : ∀ y ∈ rest, endLe x y = true := (List.pairwise_cons.mp hsorted).1
  have hxf : x ∈ (enrich markets).filter pred := by
    have : x ∈ ((enrich markets).filter pred).mergeSort endLe := by
      rw [hcons]
      exact List.mem_cons_self x rest
    exact List.mem_mergeSort.mp this
  obtain ⟨hxe, hpx⟩ := List.mem_filter.mp hxf
  obtain ⟨hxm, hxend, hxstart⟩ := mem_enrich hxe
  refine ⟨x, rest, hcons, hxm, ?_, hxend, ?_⟩
  · rw [← hcompat x hxe]
    exact hpx
  · intro m' hm' hp' e' he'
    have hx'e : ({ m := m', endMs := e', startMs := m'.eventStartTime } : Enriched)
        ∈ enrich markets := mem_enrich_of hm' he'
    have hx'f : ({ m := m', endMs := e', startMs := m'.eventStartTime } : Enriched)
        ∈ (enrich markets).filter pred := by
      rw [List.mem_filter]
      exact ⟨hx'e, by rw [hcompat _ hx'e]; exact hp'⟩
    have hx's : ({ m := m', endMs := e', startMs := m'.eventStartTime } : Enriched)
        ∈ x :: rest := by
      rw [← hcons]
      exact List.mem_mergeSort.mpr hx'f
    rcases List.mem_cons.mp hx's with heq | hmem
    · have : x.endMs = e' := by
        rw [← heq]
      exact le_of_eq this
    · have hle := hmin _ hmem
      simp only [endLe, decide_eq_true_eq] at hle
      exact hle

/-- C1: whenever some candidate market is live at `nowMs` (parsed start
absent or ≤ now, now strictly before parsed end), `pickLatestLiveMarket`
returns a live market whose parsed end time is least among all live
candidates — in particular it never returns a merely-upcoming market. -/
theorem pickLatestLiveMarket_live (markets : List Market) (nowMs : Int)
    (h : ∃ m ∈ markets, isLive nowMs m = true) :
    ∃ m, pickLatestLiveMarket markets nowMs = some m ∧ isLive nowMs m = true ∧
      ∀ m' ∈ markets, isLive nowMs m' = true →
        ∀ e e', m.endDate = some e → m'.endDate = some e' → e ≤ e' := by
  obtain ⟨m0, hm0, hl0⟩ := h
  obtain ⟨e0, he0⟩ : ∃ e, m0.endDate = some e := by
    unfold isLive at hl0
    rcases he : m0.endDate with _ | e
    · rw [he] at hl0
      cases hl0
    · exact ⟨e, rfl⟩
  have hcompat : ∀ x : Enriched, x ∈ enrich markets →
      liveCheck nowMs x = isLive nowMs x.m := by
    intro x hx
    obtain ⟨_, hxe, hxs⟩ := mem_enrich hx
    exact liveCheck_eq_isLive hxe hxs nowMs
  obtain ⟨x, rest, hcons, hxm, hxlive, hxend, hxmin⟩ :=
    sorted_filter_head markets (liveCheck nowMs) (isLive nowMs) hcompat hm0 hl0 he0
  refine ⟨x.m, ?_, hxlive, ?_⟩
  · unfold pickLatestLiveMarket
    have hne : markets.isEmpty = false := by
      cases markets
      · cases hm0
      · rfl
    rw [hne]
    simp only [Bool.false_eq_true, if_false]
    rw [hcons]
  · intro m' hm' hl' e e' he he'
    have : e = x.endMs := by
      rw [he] at hxend
      exact Option.some.inj hxend
    rw [this]
    exact hxmin m' hm' hl' e' he'

/-- C1 witness: at `now = 10`, with a live market `"a"` (start 0, end 100)
and a merely-upcoming market `"b"` (start 20, end 50), the selector returns
a live market of least end time (market `"a"`), not the upcoming one. -/
theorem pickLatestLiveMarket_live_witness :
    ∃ m, pickLatestLiveMarket
        [⟨some "a", none, some 100, some 0⟩, ⟨some "b", none, some 50, some 20⟩] 10
        = some m ∧
      isLive 10 m = true ∧
      ∀ m' ∈ [(⟨some "a", none, some 100, some 0⟩ : Market),
              ⟨some "b", none, some 50, some 20⟩],
        isLive 10 m' = true →
        ∀ e e', m.endDate = some e → m'.endDate = some e' → e ≤ e' :=
  pickLatestLiveMarket_live
    [⟨some "a", none, some 100, some 0⟩, ⟨some "b", none, some 50, some 20⟩] 10
    ⟨⟨some "a", none, some 100, some 0⟩, by decide⟩

/-- C5: when no candidate market is live but some market's parsed end time
is strictly after `nowMs`, `pickLatestLiveMarket` falls back to the
upcoming market with the least parsed end time; and on an empty candidate
list, or one where every end time is absent or unparseable, it returns
none. -/
theorem pickLatestLiveMarket_fallback (markets : List Market) (nowMs : Int) :
    ((∀ m ∈ markets, isLive nowMs m = false) →
      (∃ m ∈ markets, isUpcoming nowMs m = true) →
      ∃ m, pickLatestLiveMarket markets nowMs = some m ∧
        isUpcoming nowMs m = true ∧
        ∀ m' ∈ markets, isUpcoming nowMs m' = true →
          ∀ e e', m.endDate = some e → m'.endDate = some e' → e ≤ e') ∧
    ((∀ m ∈ markets, m.endDate = none) →
      pickLatestLiveMarket markets nowMs = none) := by
  constructor
  · intro hnolive hup
    obtain ⟨m0, hm0, hu0⟩ := hup
    obtain ⟨e0, he0⟩ : ∃ e, m0.endDate = some e := by
      unfold isUpcoming at hu0
      rcases he : m0.endDate with _ | e
      · rw [he] at hu0
        cases hu0
      · exact ⟨e, rfl⟩
    have hcompat : ∀ x : Enriched, x ∈ enrich markets →
        decide (nowMs < x.endMs) = isUpcoming nowMs x.m := by
      intro x hx
      obtain ⟨_, hxe, _⟩ := mem_enrich hx
      exact upcoming_eq_isUpcoming hxe nowMs
    have hliveEmpty : (enrich markets).filter (liveCheck nowMs) = [] := by
      rw [List.filter_eq_nil_iff]
      intro x hx
      obtain ⟨hxm, hxe, hxs⟩ := mem_enrich hx
      rw [liveCheck_eq_isLive hxe hxs nowMs, hnolive x.m hxm]
      simp
    obtain ⟨x, rest, hcons, hxm, hxup, hxend, hxmin⟩ :=
      sorted_filter_head markets (fun x => decide (nowMs < x.endMs))
        (isUpcoming nowMs) hcompat hm0 hu0 he0
    refine ⟨x.m, ?_, hxup, ?_⟩
    · unfold pickLatestLiveMarket
      have hne : markets.isEmpty = false := by
        cases markets
        · cases hm0
        · rfl
      rw [hne]
      simp only [Bool.false_eq_true, if_false]
      rw [hliveEmpty, List.mergeSort_nil, hcons]
    · intro m' hm' hu' e e' he he'
      have : e = x.endMs := by
        rw [he] at hxend
        exact Option.some.inj hxend
      rw [this]
      exact hxmin m' hm' hu' e' he'
  · intro hnone
    by_cases hM : markets.isEmpty = true
    · unfold pickLatestLiveMarket
      rw [hM]
      rfl
    · have hne : markets.isEmpty = false := by
        simpa using hM
      have henr : enrich markets = [] := by
        unfold enrich
        rw [List.filterMap_eq_nil_iff]
        intro m hm
        rw [hnone m hm]
        rfl
      unfold pickLatestLiveMarket
      rw [hne]
      simp only [Bool.false_eq_true, if_false]
      rw [henr]
      simp

/-- C5 witness: at `now = 10`, with an upcoming market `"c"` (start 20,
end 100) and an endless market `"d"`, the selector returns an upcoming
market of least end time; and on `[the endless market]` alone it returns
none. -/
theorem pickLatestLiveMarket_fallback_witness :
    (∃ m, pickLatestLiveMarket
        [⟨some "c", none, some 100, some 20⟩, ⟨some "d", none, none, none⟩] 10
        = some m ∧
      isUpcoming 10 m = true ∧
      ∀ m' ∈ [(⟨some "c", none, some 100, some 20⟩ : Market),
              ⟨some "d", none, none, none⟩],
        isUpcoming 10 m' = true →
        ∀ e e', m.endDate = some e → m'.endDate = some e' → e ≤ e') ∧
    pickLatestLiveMarket [⟨some "d", none, none, none⟩] 10 = none :=
  ⟨(pickLatestLiveMarket_fallback
      [⟨some "c", none, some 100, some 20⟩, ⟨some "d", none, none, none⟩] 10).1
      (by decide) ⟨⟨some "c", none, some 100, some 20⟩, by decide⟩,
   (pickLatestLiveMarket_fallback [⟨some "d", none, none, none⟩] 10).2
      (by decide)⟩
